import Mathlib

/-!
Verification of the Gaussian-mixture utilities of `diffuse/mixture.py`:
the mixture data model (`MixState`), the closed-form VP-SDE parameter
transform (`transform_mixture_params`), the density and CDF evaluators
(`pdf_mixtr`, `cdf_mixtr`) and the mixture sampler (`sampler_mixtr`).

Real arrays are embedded as functions `Fin K → Fin D → ℝ` and Mathlib
matrices; the external SDE collaborator is an opaque record exposing
`beta.integrate`; the JAX PRNG is an opaque deterministic record.
-/

namespace Diffuse

open scoped BigOperators

/-- Noise-schedule collaborator: `beta.integrate(t_end, t_start)` returns the
cumulative noise coefficient between two times (opaque numeric function). -/
structure Beta where
  integrate : ℝ → ℝ → ℝ

/-- SDE collaborator consumed by `transform_mixture_params`. -/
structure SDE where
  beta : Beta

/-- State of a K-component Gaussian mixture in dimension D: means, covariance
matrices and mixture weights (the fields of the `MixState` named tuple). -/
@[ext]
structure MixState (K D : ℕ) where
  means : Fin K → Fin D → ℝ
  cov : Fin K → Matrix (Fin D) (Fin D) ℝ
  mix_weights : Fin K → ℝ

/-- Embedding of `transform_mixture_params(state, sde, t)`:
`int_b = sde.beta.integrate(t, 0.0)`, `alpha = exp(-0.5*int_b)`,
`beta = 1 - exp(-int_b)`, `means ← alpha * means`,
`covs ← alpha**2 * covs + beta * eye(D)`, weights returned unchanged. -/
noncomputable def transform_mixture_params {K D : ℕ} (state : MixState K D)
    (sde : SDE) (t : ℝ) : MixState K D :=
  let int_b := sde.beta.integrate t 0
  let alpha := Real.exp (-(0.5) * int_b)
  let beta := 1 - Real.exp (-int_b)
  { means := fun k i => alpha * state.means k i
    cov := fun k => alpha ^ 2 • state.cov k + beta • (1 : Matrix (Fin D) (Fin D) ℝ)
    mix_weights := state.mix_weights }

/-- C1: for every mixture state, SDE and time `t`, the transformed means are
`alpha * means` and the transformed covariances are
`alpha^2 * cov + variance_noise * Identity(D)`, where
`int_b = sde.beta.integrate(t, 0)`, `alpha = exp(-0.5*int_b)` and
`variance_noise = 1 - exp(-int_b)`. -/
theorem transform_mixture_params_closed_form {K D : ℕ} (state : MixState K D)
    (sde : SDE) (t : ℝ) :
    (transform_mixture_params state sde t).means =
      (fun k i => Real.exp (-(0.5) * sde.beta.integrate t 0) * state.means k i) ∧
    (transform_mixture_params state sde t).cov =
      (fun k => (Real.exp (-(0.5) * sde.beta.integrate t 0)) ^ 2 • state.cov k +
        (1 - Real.exp (-(sde.beta.integrate t 0))) • (1 : Matrix (Fin D) (Fin D) ℝ)) :=
  ⟨rfl, rfl⟩

/-- C3: the weights of the state returned by `transform_mixture_params` are
identical to the weights of the input state. -/
theorem transform_mixture_params_weights_invariant {K D : ℕ} (state : MixState K D)
    (sde : SDE) (t : ℝ) :
    (transform_mixture_params state sde t).mix_weights = state.mix_weights :=
  rfl

/-- C4: when the noise-schedule integral vanishes at `t = 0`
(`sde.beta.integrate 0 0 = 0`), the transform at `t = 0` is the identity:
means, covariances and weights are all returned unchanged. -/
theorem transform_mixture_params_identity_at_zero {K D : ℕ} (state : MixState K D)
    (sde : SDE) (h : sde.beta.integrate 0 0 = 0) :
    transform_mixture_params state sde 0 = state := by
  obtain ⟨m, c, w⟩ := state
  simp only [transform_mixture_params, h]
  norm_num [Real.exp_zero]

/-- Standard normal CDF `Φ`, the semantics of `jax.scipy.stats.norm.cdf`:
the mass that the standard Gaussian measure gives to `(-∞, z]`. -/
noncomputable def normCdf (z : ℝ) : ℝ :=
  (ProbabilityTheory.gaussianReal 0 1 (Set.Iic z)).toReal

/-- Embedding of `cdf_mixtr(mix_state, x)` on a univariate (D = 1) state:
`stds = sqrt(covs)`, `single_cdf(mean, std, weight) = weight * Φ((x-mean)/std)`,
summed over the components (the sum over one scalar per component is already a
scalar, so the trailing `squeeze` is the identity here). -/
noncomputable def cdf_mixtr {K : ℕ} (mix_state : MixState K 1) (x : ℝ) : ℝ :=
  let stds := fun k => Real.sqrt (mix_state.cov k 0 0)
  let single_cdf := fun (mean std weight : ℝ) => weight * normCdf ((x - mean) / std)
  ∑ k, single_cdf (mix_state.means k 0) (stds k) (mix_state.mix_weights k)

/-- Density of the multivariate normal, the semantics of
`jax.scipy.stats.multivariate_normal.pdf(x, mean, sigma)`:
`(2π)^(-D/2) det(Σ)^(-1/2) exp(-(x-μ)ᵀ Σ⁻¹ (x-μ) / 2)`. -/
noncomputable def multivariate_normal_pdf {D : ℕ} (x mean : Fin D → ℝ)
    (sigma : Matrix (Fin D) (Fin D) ℝ) : ℝ :=
  Real.exp (-(1 / 2) * Matrix.dotProduct (x - mean) (sigma⁻¹.mulVec (x - mean))) /
    Real.sqrt ((2 * Real.pi) ^ D * sigma.det)

/-- Embedding of `pdf_mixtr(mix_state, x)`: the per-component multivariate
normal densities at `x`, contracted with the weights (`weights @ pdf`). -/
noncomputable def pdf_mixtr {K D : ℕ} (mix_state : MixState K D)
    (x : Fin D → ℝ) : ℝ :=
  let pdf := fun k => multivariate_normal_pdf x (mix_state.means k) (mix_state.cov k)
  Matrix.dotProduct mix_state.mix_weights pdf

/-- A concrete linear noise schedule, `integrate t s = t - s`. -/
noncomputable def sdeLinear : SDE := ⟨⟨fun a b => a - b⟩⟩

/-- The standard-normal one-component mixture state: one component, `D = 1`,
mean `0`, covariance `1`, weight `1`. -/
noncomputable def stdState : MixState 1 1 :=
  { means := fun _ _ => 0
    cov := fun _ => 1
    mix_weights := fun _ => 1 }

/-- C5: `pdf_mixtr` returns the weighted sum of the per-component multivariate
normal densities at the query point; on the one-component standard-normal state
(D = 1, mean 0, covariance 1, weight 1) its value at `x = 0` is `1/√(2π)`. -/
theorem pdf_mixtr_weighted_sum :
    (∀ (K D : ℕ) (state : MixState K D) (x : Fin D → ℝ),
      pdf_mixtr state x =
        ∑ k, state.mix_weights k *
          multivariate_normal_pdf x (state.means k) (state.cov k)) ∧
    pdf_mixtr stdState (fun _ => 0) = 1 / Real.sqrt (2 * Real.pi) := by
  constructor
  · intro K D state x
    rfl
  · simp [pdf_mixtr, stdState, Matrix.dotProduct, multivariate_normal_pdf]

/-- C6: `cdf_mixtr` returns the weighted sum of univariate normal CDFs
`Φ((x - mean_k)/√(variance_k))`, the covariance entries being used directly as
variances. -/
theorem cdf_mixtr_weighted_sum (K : ℕ) (state : MixState K 1) (x : ℝ) :
    cdf_mixtr state x =
      ∑ k, state.mix_weights k *
        normCdf ((x - state.means k 0) / Real.sqrt (state.cov k 0 0)) :=
  rfl

/-- Opaque deterministic PRNG collaborator for a K-component, D-dimensional
state: `split` derives two sub-keys, `choice` draws component indices from the
categorical distribution given by the weights, `normal` draws standard-normal
noise vectors. All draws are pure functions of the key (JAX PRNG semantics). -/
structure PRNG (Key : Type) (K D : ℕ) where
  split : Key → Key × Key
  choice : Key → (N : ℕ) → (Fin K → ℝ) → Fin N → Fin K
  normal : Key → (N : ℕ) → Fin N → Fin D → ℝ

/-- Embedding of `sampler_mixtr(key, state, N)`: split the key, draw `N`
component indices and `N` standard-normal noise vectors, take the Cholesky
factor of each covariance (`jnp.linalg.cholesky`, an opaque linear-algebra
routine), and scale the noise by `einsum("nij, ni->nj", chol[idx], noise)`,
i.e. `noise_scaled n j = ∑ i, chol (idx n) i j * noise n i` (the contraction
runs over the FIRST matrix index). Returns `mu[idx] + noise_scaled`. -/
noncomputable def sampler_mixtr {Key : Type} {K D : ℕ} (rng : PRNG Key K D)
    (cholesky : Matrix (Fin D) (Fin D) ℝ → Matrix (Fin D) (Fin D) ℝ)
    (key : Key) (state : MixState K D) (N : ℕ) : Fin N → Fin D → ℝ :=
  let mu := state.means
  let sigma := state.cov
  let weights := state.mix_weights
  let ks := rng.split key
  let idx := rng.choice ks.1 N weights
  let noise := rng.normal ks.2 N
  let chol := fun k => cholesky (sigma k)
  let noise_scaled := fun (n : Fin N) (j : Fin D) => ∑ i, chol (idx n) i j * noise n i
  fun n j => mu (idx n) j + noise_scaled n j

/-- Concrete deterministic PRNG on a trivial key type: `choice` always picks
component 0, `normal` always returns the noise vector `(1, 0, …, 0)`. -/
noncomputable def rngC : PRNG Unit 1 2 where
  split := fun _ => ((), ())
  choice := fun _ _ _ _ => 0
  normal := fun _ _ _ i => if i = 0 then 1 else 0

/-- The covariance `[[1, 1], [1, 2]]` of the single component of `stC`. -/
noncomputable def covC : Matrix (Fin 2) (Fin 2) ℝ := !![1, 1; 1, 2]

/-- The lower-triangular Cholesky factor of `covC`: `[[1, 0], [1, 1]]`. -/
noncomputable def LC : Matrix (Fin 2) (Fin 2) ℝ := !![1, 0; 1, 1]

/-- One-component 2-dimensional state with mean `0` and covariance `covC`. -/
noncomputable def stC : MixState 1 2 where
  means := fun _ _ => 0
  cov := fun _ => covC
  mix_weights := fun _ => 1

/-- Cholesky routine answered concretely on `covC` by its factor `LC`. -/
noncomputable def cholC : Matrix (Fin 2) (Fin 2) ℝ → Matrix (Fin 2) (Fin 2) ℝ :=
  fun _ => LC

/-- C2: the einsum `"nij, ni->nj"` contracts the Cholesky factor over its
first (row) index, so the sampler returns `mean + Lᵀ @ noise` instead of the
specified `mean + L @ noise`. Concretely: for the one-component state with
covariance `[[1, 1], [1, 2]]`, whose lower-triangular Cholesky factor `LC`
satisfies `LC * LCᵀ = covC`, and noise vector `(1, 0)`, the code produces the
sample `(1, 0)` while `mean + L @ noise` is `(1, 1)`; the two differ. -/
theorem sampler_mixtr_contracts_wrong_index :
    LC * LC.transpose = covC ∧
    (∀ i j : Fin 2, (i : ℕ) < (j : ℕ) → LC i j = 0) ∧
    sampler_mixtr rngC cholC () stC 1 0 = ![1, 0] ∧
    (stC.means 0 + LC.mulVec (rngC.normal () 1 0)) = ![1, 1] ∧
    sampler_mixtr rngC cholC () stC 1 0 ≠
      stC.means 0 + LC.mulVec (rngC.normal () 1 0) := by
  refine ⟨?_, ?_, ?_, ?_, ?_⟩
  · ext i j
    fin_cases i <;> fin_cases j <;>
      norm_num [Matrix.mul_apply, Fin.sum_univ_two, LC, covC, Matrix.transpose]
  · intro i j hij
    fin_cases i <;> fin_cases j <;> simp_all [LC]
  · funext j
    fin_cases j <;>
      simp [sampler_mixtr, rngC, cholC, stC, LC, Fin.sum_univ_two]
  · funext j
    fin_cases j <;>
      simp [Matrix.mulVec, Matrix.dotProduct, rngC, stC, LC, Fin.sum_univ_two]
  · intro h
    have h1 : sampler_mixtr rngC cholC () stC 1 0 1 =
        (stC.means 0 + LC.mulVec (rngC.normal () 1 0)) 1 := by rw [h]
    simp [sampler_mixtr, Matrix.mulVec, Matrix.dotProduct, rngC, cholC, stC, LC,
      Fin.sum_univ_two] at h1

/-- C8: the sampler is deterministic — two calls with identical key, state and
count produce identical output. -/
theorem sampler_mixtr_deterministic {Key : Type} {K D : ℕ} (rng : PRNG Key K D)
    (cholesky : Matrix (Fin D) (Fin D) ℝ → Matrix (Fin D) (Fin D) ℝ)
    (key1 key2 : Key) (s1 s2 : MixState K D) (N : ℕ)
    (hk : key1 = key2) (hs : s1 = s2) :
    sampler_mixtr rng cholesky key1 s1 N = sampler_mixtr rng cholesky key2 s2 N := by
  rw [hk, hs]

/-- C8 witness: two calls of the sampler on the concrete PRNG, key, state and
count agree. -/
theorem sampler_mixtr_deterministic_witness :
    sampler_mixtr rngC cholC () stC 5 = sampler_mixtr rngC cholC () stC 5 :=
  sampler_mixtr_deterministic rngC cholC () () stC stC 5 rfl rfl

/-- The standard normal CDF is monotone. -/
theorem normCdf_monotone : Monotone normCdf := by
  intro a b hab
  exact ENNReal.toReal_mono (MeasureTheory.measure_ne_top _ _)
    (MeasureTheory.measure_mono (Set.Iic_subset_Iic.2 hab))

/-- The standard normal CDF tends to 1 at `+∞`. -/
theorem normCdf_tendsto_atTop :
    Filter.Tendsto normCdf Filter.atTop (nhds 1) := by
  have h := MeasureTheory.tendsto_measure_Iic_atTop
    (μ := ProbabilityTheory.gaussianReal 0 1)
  rw [MeasureTheory.measure_univ] at h
  have h2 := (ENNReal.tendsto_toReal (a := 1) (by simp)).comp h
  simpa using h2

/-- The standard normal CDF tends to 0 at `-∞`. -/
theorem normCdf_tendsto_atBot :
    Filter.Tendsto normCdf Filter.atBot (nhds 0) := by
  have h := MeasureTheory.tendsto_measure_iInter_atBot
    (μ := ProbabilityTheory.gaussianReal 0 1) (s := fun x : ℝ => Set.Iic x)
    (fun _ => measurableSet_Iic.nullMeasurableSet)
    (fun _ _ hab => Set.Iic_subset_Iic.2 hab)
    ⟨0, MeasureTheory.measure_ne_top _ _⟩
  have hempty : (⋂ x : ℝ, Set.Iic x) = ∅ := by
    ext y
    simp only [Set.mem_iInter, Set.mem_Iic, Set.mem_empty_iff_false, iff_false,
      not_forall, not_le]
    exact ⟨y - 1, by linarith⟩
  rw [hempty, MeasureTheory.measure_empty] at h
  have h2 := (ENNReal.tendsto_toReal (a := 0) (by simp)).comp h
  simpa [Function.comp] using h2

/-- C7: on a univariate mixture state with non-negative weights summing to 1
and strictly positive variances, `cdf_mixtr` is monotone non-decreasing, tends
to 0 at `-∞` and tends to 1 at `+∞`. -/
theorem cdf_mixtr_monotone_and_limits (K : ℕ) (state : MixState K 1)
    (hw : ∀ k, 0 ≤ state.mix_weights k)
    (hsum : ∑ k, state.mix_weights k = 1)
    (hv : ∀ k, 0 < state.cov k 0 0) :
    Monotone (fun x => cdf_mixtr state x) ∧
    Filter.Tendsto (fun x => cdf_mixtr state x) Filter.atBot (nhds 0) ∧
    Filter.Tendsto (fun x => cdf_mixtr state x) Filter.atTop (nhds 1) := by
  have hs : ∀ k, 0 < Real.sqrt (state.cov k 0 0) :=
    fun k => Real.sqrt_pos.2 (hv k)
  have hargTop : ∀ k, Filter.Tendsto
      (fun x : ℝ => (x - state.means k 0) / Real.sqrt (state.cov k 0 0))
      Filter.atTop Filter.atTop := by
    intro k
    refine Filter.Tendsto.atTop_div_const (hs k) ?_
    simp only [sub_eq_add_neg]
    exact Filter.tendsto_atTop_add_const_right _ _ Filter.tendsto_id
  have hargBot : ∀ k, Filter.Tendsto
      (fun x : ℝ => (x - state.means k 0) / Real.sqrt (state.cov k 0 0))
      Filter.atBot Filter.atBot := by
    intro k
    refine Filter.Tendsto.atBot_div_const (hs k) ?_
    simp only [sub_eq_add_neg]
    exact Filter.tendsto_atBot_add_const_right _ _ Filter.tendsto_id
  refine ⟨?_, ?_, ?_⟩
  · intro a b hab
    simp only [cdf_mixtr]
    refine Finset.sum_le_sum fun k _ => ?_
    refine mul_le_mul_of_nonneg_left ?_ (hw k)
    exact normCdf_monotone ((div_le_div_iff_of_pos_right (hs k)).2
      (sub_le_sub_right hab _))
  · have hterm : ∀ k : Fin K, Filter.Tendsto
        (fun x : ℝ => state.mix_weights k *
          normCdf ((x - state.means k 0) / Real.sqrt (state.cov k 0 0)))
        Filter.atBot (nhds (state.mix_weights k * 0)) :=
      fun k => ((normCdf_tendsto_atBot.comp (hargBot k)).const_mul _)
    have h := tendsto_finset_sum Finset.univ (fun k _ => hterm k)
    simp only [mul_zero, Finset.sum_const_zero] at h
    simpa [cdf_mixtr] using h
  · have hterm : ∀ k : Fin K, Filter.Tendsto
        (fun x : ℝ => state.mix_weights k *
          normCdf ((x - state.means k 0) / Real.sqrt (state.cov k 0 0)))
        Filter.atTop (nhds (state.mix_weights k * 1)) :=
      fun k => ((normCdf_tendsto_atTop.comp (hargTop k)).const_mul _)
    have h := tendsto_finset_sum Finset.univ (fun k _ => hterm k)
    simp only [mul_one, hsum] at h
    simpa [cdf_mixtr] using h

/-- C7 witness: on the one-component standard-normal state the hypotheses hold
and the CDF is monotone with limits 0 and 1. -/
theorem cdf_mixtr_monotone_and_limits_witness :
    (∀ k : Fin 1, 0 ≤ stdState.mix_weights k) ∧
    (∑ k, stdState.mix_weights k) = 1 ∧
    (∀ k : Fin 1, 0 < stdState.cov k 0 0) ∧
    (Monotone (fun x => cdf_mixtr stdState x) ∧
     Filter.Tendsto (fun x => cdf_mixtr stdState x) Filter.atBot (nhds 0) ∧
     Filter.Tendsto (fun x => cdf_mixtr stdState x) Filter.atTop (nhds 1)) :=
  ⟨fun _ => by norm_num [stdState],
   by norm_num [stdState],
   fun _ => by norm_num [stdState, Matrix.one_apply],
   cdf_mixtr_monotone_and_limits 1 stdState
     (fun _ => by norm_num [stdState])
     (by norm_num [stdState])
     (fun _ => by norm_num [stdState, Matrix.one_apply])⟩

/-- Identity matrix of size `n` as nested lists (`jnp.eye(n)`). -/
noncomputable def eyeL (n : ℕ) : List (List ℝ) :=
  (List.range n).map (fun i => (List.range n).map (fun j => if i = j then 1 else 0))

/-- Elementwise scalar multiplication of a nested-list matrix. -/
noncomputable def smulL (c : ℝ) (M : List (List ℝ)) : List (List ℝ) :=
  M.map (List.map (fun a => c * a))

/-- Elementwise addition of two nested-list matrices. -/
noncomputable def addL (A B : List (List ℝ)) : List (List ℝ) :=
  List.zipWith (List.zipWith (fun a b => a + b)) A B

/-- List-shape embedding of `transform_mixture_params`, keeping the source's
absence of shape validation: every field is mapped elementwise with no
consistency check between means, covariances and weights;
`jnp.eye(covs.shape[-1])` is the identity sized by the covariance rows. -/
noncomputable def transform_mixture_params_l (means : List (List ℝ))
    (covs : List (List (List ℝ))) (weights : List ℝ) (sde : SDE) (t : ℝ) :
    List (List ℝ) × List (List (List ℝ)) × List ℝ :=
  let int_b := sde.beta.integrate t 0
  let alpha := Real.exp (-(0.5) * int_b)
  let beta := 1 - Real.exp (-int_b)
  (means.map (List.map (fun m => alpha * m)),
   covs.map (fun M =>
     addL (smulL (alpha ^ 2) M) (smulL beta (eyeL ((M.headD []).length)))),
   weights)

/-- List-shape embedding of `cdf_mixtr` (univariate components): `jax.vmap`
rejects argument arrays whose leading axes disagree, modelled by `none` on
component-count mismatch. -/
noncomputable def cdf_mixtr_l (means covs weights : List ℝ) (x : ℝ) : Option ℝ :=
  if means.length = covs.length ∧ covs.length = weights.length then
    let stds := covs.map Real.sqrt
    some ((List.zipWith (fun (ms : ℝ × ℝ) w => w * normCdf ((x - ms.1) / ms.2))
      (means.zip stds) weights).sum)
  else none

/-- The multivariate normal density read off nested lists (entries fetched with
default 0), used by the list-shape embedding of `pdf_mixtr`. -/
noncomputable def mvn_pdf_l (x mean : List ℝ) (sigma : List (List ℝ)) : ℝ :=
  multivariate_normal_pdf (D := mean.length)
    (fun i => x.getD i 0) (fun i => mean.getD i 0)
    (Matrix.of (fun i j : Fin mean.length => (sigma.getD i []).getD j 0))

/-- List-shape embedding of `pdf_mixtr`: `jax.vmap` requires means and sigmas
to share their leading axis, and the contraction `weights @ pdf` requires
matching lengths; both modelled by `none` on mismatch. -/
noncomputable def pdf_mixtr_l (means : List (List ℝ)) (sigmas : List (List (List ℝ)))
    (weights : List ℝ) (x : List ℝ) : Option ℝ :=
  if means.length = sigmas.length ∧ means.length = weights.length then
    some ((List.zipWith (fun w p => w * p) weights
      (List.zipWith (fun m s => mvn_pdf_l x m s) means sigmas)).sum)
  else none

/-- An SDE whose schedule integral is identically zero. -/
noncomputable def sdeZero : SDE := ⟨⟨fun _ _ => 0⟩⟩

/-- C9 counterexample: `transform_mixture_params` does NOT fail fast on a
dimensionally inconsistent state. On one component whose mean has dimension 2
but whose covariance is 3×3, the transform completes and returns a full
numeric result (here, with a zero schedule integral, the input itself). -/
theorem transform_mixture_params_no_shape_error :
    transform_mixture_params_l [[1, 2]] [[[1, 0, 0], [0, 1, 0], [0, 0, 1]]] [1]
      sdeZero 1 =
      ([[1, 2]], [[[1, 0, 0], [0, 1, 0], [0, 0, 1]]], [1]) := by
  norm_num [transform_mixture_params_l, sdeZero, addL, smulL, eyeL,
    List.range_succ, Real.exp_zero]

/-- C9 (amended): component-count mismatch makes `cdf_mixtr` and `pdf_mixtr`
fail fast (the `vmap`/contraction length checks reject it before any numeric
computation), but `transform_mixture_params` performs no shape validation and
always returns a numeric result, means, covariances and weights each mapped
elementwise on their own. -/
theorem mixture_ops_shape_checks :
    (∀ (means covs weights : List ℝ) (x : ℝ),
      ¬(means.length = covs.length ∧ covs.length = weights.length) →
      cdf_mixtr_l means covs weights x = none) ∧
    (∀ (means : List (List ℝ)) (sigmas : List (List (List ℝ)))
      (weights : List ℝ) (x : List ℝ),
      ¬(means.length = sigmas.length ∧ means.length = weights.length) →
      pdf_mixtr_l means sigmas weights x = none) ∧
    (∀ (means : List (List ℝ)) (covs : List (List (List ℝ)))
      (weights : List ℝ) (sde : SDE) (t : ℝ),
      transform_mixture_params_l means covs weights sde t =
        (means.map (List.map (fun m => Real.exp (-(0.5) * sde.beta.integrate t 0) * m)),
         covs.map (fun M =>
           addL (smulL ((Real.exp (-(0.5) * sde.beta.integrate t 0)) ^ 2) M)
             (smulL (1 - Real.exp (-(sde.beta.integrate t 0)))
               (eyeL ((M.headD []).length)))),
         weights)) := by
  refine ⟨?_, ?_, ?_⟩
  · intro means covs weights x h
    simp only [cdf_mixtr_l, if_neg h]
  · intro means sigmas weights x h
    simp only [pdf_mixtr_l, if_neg h]
  · intro means covs weights sde t
    rfl

/-- C9 witness: concrete mismatched inputs on which the CDF and PDF evaluators
fail fast. -/
theorem mixture_ops_shape_checks_witness :
    cdf_mixtr_l [0] [] [] 0 = none ∧ pdf_mixtr_l [[0]] [] [] [0] = none :=
  ⟨mixture_ops_shape_checks.1 [0] [] [] 0 (by simp),
   mixture_ops_shape_checks.2.1 [[0]] [] [] [0] (by simp)⟩

/-- IEEE-754 value classes over exact reals: finite, `+∞`, `-∞`, NaN. Used to
model the float semantics of `cdf_mixtr`'s unguarded division. -/
inductive FP where
  | fin : ℝ → FP
  | inf : FP
  | ninf : FP
  | nan : FP

/-- IEEE addition on these value classes: NaN absorbs, `+∞ + -∞ = NaN`. -/
noncomputable def FP.add : FP → FP → FP
  | nan, _ => nan
  | _, nan => nan
  | inf, ninf => nan
  | ninf, inf => nan
  | inf, _ => inf
  | _, inf => inf
  | ninf, _ => ninf
  | _, ninf => ninf
  | fin a, fin b => fin (a + b)

/-- IEEE square root (`jnp.sqrt`): negative arguments give NaN. -/
noncomputable def fsqrt (v : ℝ) : FP :=
  if v < 0 then FP.nan else FP.fin (Real.sqrt v)

/-- IEEE division of a finite value by a possibly special value:
`0/0 = NaN`, `a/0 = ±∞` by the sign of `a`, `a/±∞ = 0`, `a/NaN = NaN`. -/
noncomputable def fdiv (a : ℝ) : FP → FP
  | FP.fin s =>
      if s = 0 then (if a = 0 then FP.nan else if 0 < a then FP.inf else FP.ninf)
      else FP.fin (a / s)
  | FP.inf => FP.fin 0
  | FP.ninf => FP.fin 0
  | FP.nan => FP.nan

/-- `jax.scipy.stats.norm.cdf` on special values: `Φ(+∞) = 1`, `Φ(-∞) = 0`,
`Φ(NaN) = NaN`. -/
noncomputable def normCdfFP : FP → FP
  | FP.fin z => FP.fin (normCdf z)
  | FP.inf => FP.fin 1
  | FP.ninf => FP.fin 0
  | FP.nan => FP.nan

/-- IEEE product of a finite weight with a possibly special CDF value:
`w * NaN = NaN` (also when `w = 0`), `w * ±∞` by sign, `0 * ±∞ = NaN`. -/
noncomputable def fmul (w : ℝ) : FP → FP
  | FP.fin c => FP.fin (w * c)
  | FP.inf => if w = 0 then FP.nan else if 0 < w then FP.inf else FP.ninf
  | FP.ninf => if w = 0 then FP.nan else if 0 < w then FP.ninf else FP.inf
  | FP.nan => FP.nan

/-- Float-semantics embedding of `cdf_mixtr` (univariate components): the same
structure as `cdf_mixtr_l`, with the IEEE special values of `sqrt`, of the
unguarded division `(x - mean) / std`, of `norm.cdf` and of the final sum made
explicit. -/
noncomputable def cdf_mixtr_fp (means covs weights : List ℝ) (x : ℝ) : FP :=
  let stds := covs.map fsqrt
  let cdfs := List.zipWith
    (fun (ms : ℝ × FP) w => fmul w (normCdfFP (fdiv (x - ms.1) ms.2)))
    (means.zip stds) weights
  cdfs.foldr FP.add (FP.fin 0)

theorem FP.add_nan_left (y : FP) : FP.add FP.nan y = FP.nan := by
  cases y <;> rfl

theorem FP.add_nan_right (y : FP) : FP.add y FP.nan = FP.nan := by
  cases y <;> rfl

theorem FP.foldr_add_of_nan_mem (l : List FP) (h : FP.nan ∈ l) :
    l.foldr FP.add (FP.fin 0) = FP.nan := by
  induction l with
  | nil => cases h
  | cons a t ih =>
    rcases List.mem_cons.1 h with h1 | h2
    · rw [List.foldr_cons, ← h1, FP.add_nan_left]
    · rw [List.foldr_cons, ih h2, FP.add_nan_right]

theorem FP.foldr_add_of_all_fin (l : List FP) (h : ∀ y ∈ l, ∃ r : ℝ, y = FP.fin r) :
    ∃ r : ℝ, l.foldr FP.add (FP.fin 0) = FP.fin r := by
  induction l with
  | nil => exact ⟨0, rfl⟩
  | cons a t ih =>
    obtain ⟨r1, hr1⟩ := h a (List.mem_cons_self a t)
    obtain ⟨r2, hr2⟩ := ih fun y hy => h y (List.mem_cons_of_mem a hy)
    exact ⟨r1 + r2, by rw [List.foldr_cons, hr1, hr2]; rfl⟩

/-- C10: `cdf_mixtr` divides by `sqrt(variance)` with no guard. Under IEEE
float semantics, any state with a zero-variance component `k` makes the value
at the query point `x = mean_k` NaN (no error is raised — a value is always
returned); when every component variance is strictly positive the result is a
finite real. -/
theorem cdf_mixtr_fp_zero_variance_nan :
    (∀ (means covs weights : List ℝ) (x : ℝ) (k : ℕ),
      means.length = covs.length → covs.length = weights.length →
      k < covs.length → covs.getD k 1 = 0 → x = means.getD k 0 →
      cdf_mixtr_fp means covs weights x = FP.nan) ∧
    (∀ (means covs weights : List ℝ) (x : ℝ),
      (∀ v ∈ covs, 0 < v) →
      ∃ r : ℝ, cdf_mixtr_fp means covs weights x = FP.fin r) := by
  constructor
  · intro means covs weights x k hmc hcw hk hv hx
    have hkm : k < means.length := by omega
    have hkw : k < weights.length := by omega
    have hlen : k < (List.zipWith
        (fun (ms : ℝ × FP) w => fmul w (normCdfFP (fdiv (x - ms.1) ms.2)))
        (means.zip (covs.map fsqrt)) weights).length := by
      simp [List.length_zipWith, List.length_zip]
      omega
    have hget : (List.zipWith
        (fun (ms : ℝ × FP) w => fmul w (normCdfFP (fdiv (x - ms.1) ms.2)))
        (means.zip (covs.map fsqrt)) weights).get ⟨k, hlen⟩ = FP.nan := by
      rw [List.get_eq_getElem, List.getElem_zipWith, List.getElem_zip,
        List.getElem_map]
      have hcovk : covs[k] = 0 := by
        rw [List.getD_eq_getElem covs 1 hk] at hv
        exact hv
      have hmeank : x - means[k] = 0 := by
        rw [hx, List.getD_eq_getElem means 0 hkm, sub_self]
      rw [hcovk, hmeank]
      simp [fsqrt, fdiv, normCdfFP, fmul]
    have hmem : FP.nan ∈ (List.zipWith
        (fun (ms : ℝ × FP) w => fmul w (normCdfFP (fdiv (x - ms.1) ms.2)))
        (means.zip (covs.map fsqrt)) weights) := by
      rw [← hget]
      exact List.get_mem _ _ _
    exact FP.foldr_add_of_nan_mem _ hmem
  · intro means covs weights x hv
    refine FP.foldr_add_of_all_fin _ ?_
    intro y hy
    obtain ⟨i, hi, hiy⟩ := List.mem_iff_getElem.1 hy
    rw [List.getElem_zipWith, List.getElem_zip, List.getElem_map] at hiy
    have hilen : i < covs.length := by
      simp [List.length_zipWith, List.length_zip] at hi
      omega
    have hvi : 0 < covs[i] := hv _ (List.getElem_mem hilen)
    have hsq : fsqrt covs[i] = FP.fin (Real.sqrt covs[i]) := by
      rw [fsqrt, if_neg (not_lt.2 hvi.le)]
    have hsne : Real.sqrt covs[i] ≠ 0 := ne_of_gt (Real.sqrt_pos.2 hvi)
    have him : i < means.length := by
      simp [List.length_zipWith, List.length_zip] at hi
      omega
    have hiw : i < weights.length := by
      simp [List.length_zipWith, List.length_zip] at hi
      omega
    refine ⟨weights[i] * normCdf ((x - means[i]) / Real.sqrt covs[i]), ?_⟩
    rw [← hiy]
    simp [hsq, fdiv, if_neg hsne, normCdfFP, fmul]

/-- C10 witness: on the state with one component of mean 0, variance 0 and
weight 1, the CDF value at `x = 0` is NaN; with variance 1 instead, the value
is finite. -/
theorem cdf_mixtr_fp_zero_variance_nan_witness :
    cdf_mixtr_fp [0] [0] [1] 0 = FP.nan ∧
    ∃ r : ℝ, cdf_mixtr_fp [0] [1] [1] 0 = FP.fin r :=
  ⟨cdf_mixtr_fp_zero_variance_nan.1 [0] [0] [1] 0 0 (by simp) (by simp)
      (by simp) (by simp) (by simp),
   cdf_mixtr_fp_zero_variance_nan.2 [0] [1] [1] 0
      (by intro v hv; rw [List.mem_singleton.1 hv]; norm_num)⟩

/-- C4 witness: the linear schedule integrates to `0` on `(0, 0)` and the
transform at `t = 0` fixes the standard one-component state. -/
theorem transform_mixture_params_identity_at_zero_witness :
    sdeLinear.beta.integrate 0 0 = 0 ∧
      transform_mixture_params stdState sdeLinear 0 = stdState :=
  ⟨by norm_num [sdeLinear],
   transform_mixture_params_identity_at_zero stdState sdeLinear
     (by norm_num [sdeLinear])⟩

end Diffuse
